import Mathlib

/-!
Verification of the Octavium off-chain order book core.

Shallow embedding of `src/packages/octavium/src/off-chain_book/book.rs`.

Modelling conventions:
* `u64` / `u128` values are `Nat`; the one place overflow can occur on
  in-range inputs (the `fill_qty * maker.price` multiplication building a
  `Fill`) carries an explicit `% 2 ^ 64`.  Subtraction appears only as
  `quantity - filled_quantity`, which in the states reachable under the
  documented invariant `filled_quantity ≤ quantity` never underflows, so
  truncated `Nat` subtraction coincides with `u64` subtraction there.
* `BTreeMap<u128, Order>` is an association list strictly sorted by key
  ascending (`SideSorted`).  `first_key_value` is the head,
  `last_key_value` the last element, `insert` replaces an existing key,
  `remove` deletes the (unique) occurrence of a key.
* The `while` loop of `Book::match_order` is a fuel-indexed recursion
  `matchLoopF`; the entry point runs it with fuel
  `side.length + MAX_FILLS`, and fuel irrelevance above that bound is
  proved (the loop terminates within that many iterations).
* Rust methods that mutate `&mut self` return the new state explicitly.
-/

namespace Octavium

/-- Constant `MAX_FILLS`: maximum number of fills in a single matching operation. -/
def MAX_FILLS : Nat := 100

/-- Constant `TICK_SIZE`: minimum price increment for orders (declared in the
source, never read by any function). -/
def TICK_SIZE : Nat := 1

/-- Constant `LOT_SIZE`: minimum quantity increment for orders (declared in the
source, never read by any function). -/
def LOT_SIZE : Nat := 1

/-- Constant `MIN_SIZE`: minimum order size allowed (declared in the source,
never read by any function). -/
def MIN_SIZE : Nat := 1

/-- The modulus `2 ^ 64` of `u64` arithmetic. -/
def U64 : Nat := 2 ^ 64

/-- The `Order` struct. -/
structure Order where
  order_id : Nat
  price : Nat
  quantity : Nat
  filled_quantity : Nat
  owner : String
  expire_timestamp : Nat
  is_bid : Bool
  deriving Repr, DecidableEq

/-- Method `Order::remaining_quantity`: `self.quantity - self.filled_quantity`. -/
def Order.remaining_quantity (o : Order) : Nat :=
  o.quantity - o.filled_quantity

/-- Method `Order::is_filled`: `self.filled_quantity >= self.quantity`. -/
def Order.is_filled (o : Order) : Bool :=
  decide (o.quantity ≤ o.filled_quantity)

/-- The `Fill` struct. -/
structure Fill where
  maker_order_id : Nat
  taker_order_id : Nat
  base_quantity : Nat
  quote_quantity : Nat
  timestamp : Nat
  deriving Repr, DecidableEq

/-- One side of the book: `BTreeMap<u128, Order>` as an association list
strictly sorted by key. -/
abbrev BookSide := List (Nat × Order)

/-- Strict key-sortedness: the representation invariant of `BTreeMap`. -/
abbrev SideSorted (s : BookSide) : Prop :=
  List.Chain' (fun a b => a.1 < b.1) s

/-- Map operation `BTreeMap::insert`: insert keeping keys sorted, replacing an
equal key. -/
def sideInsert (k : Nat) (v : Order) : BookSide → BookSide
  | [] => [(k, v)]
  | (k', v') :: rest =>
    if k < k' then (k, v) :: (k', v') :: rest
    else if k = k' then (k, v) :: rest
    else (k', v') :: sideInsert k v rest

/-- Map operation `BTreeMap::remove` (the returned value is looked up
separately): delete the entry with key `k`, if present. -/
def sideRemove (k : Nat) : BookSide → BookSide
  | [] => []
  | (k', v') :: rest => if k = k' then rest else (k', v') :: sideRemove k rest

/-- Lookup of the value stored at key `k`. -/
def sideLookup (k : Nat) : BookSide → Option Order
  | [] => none
  | (k', v') :: rest => if k = k' then some v' else sideLookup k rest

/-- In-place mutation of the value stored at key `k` (the Rust code updates
`maker_order.filled_quantity` through the map reference). -/
def sideUpdate (k : Nat) (v : Order) : BookSide → BookSide
  | [] => []
  | (k', v') :: rest =>
    if k = k' then (k, v) :: rest else (k', v') :: sideUpdate k v rest

/-- Map operation `BTreeMap::first_key_value`: the entry with smallest key. -/
def sideFirst (s : BookSide) : Option (Nat × Order) := s.head?

/-- Map operation `BTreeMap::last_key_value`: the entry with largest key. -/
def sideLast (s : BookSide) : Option (Nat × Order) := s.getLast?

/-- The `Book` struct. -/
structure Book where
  bids : BookSide
  asks : BookSide
  next_bid_order_id : Nat
  next_ask_order_id : Nat
  deriving Repr, DecidableEq

/-- Constructor `Book::new`. -/
def Book.new : Book where
  bids := []
  asks := []
  next_bid_order_id := 2 ^ 64 - 1
  next_ask_order_id := 1

/-- Method `Book::prices_match` (the `&self` receiver is unused in the source). -/
def prices_match (taker maker : Order) : Bool :=
  if taker.is_bid then decide (maker.price ≤ taker.price)
  else decide (taker.price ≤ maker.price)

/-- The `Fill` record built in the loop body of `Book::match_order`:
`base_quantity` is `min` of the two remaining quantities and
`quote_quantity` is `fill_qty * maker_order.price` in `u64`. -/
def mkFill (order_id : Nat) (taker maker : Order) (timestamp : Nat) : Fill where
  maker_order_id := order_id
  taker_order_id := taker.order_id
  base_quantity := min taker.remaining_quantity maker.remaining_quantity
  quote_quantity := min taker.remaining_quantity maker.remaining_quantity * maker.price % U64
  timestamp := timestamp

/-- Shorthand for the `filled_quantity += q` update both orders undergo in a
fill step (used to state lemmas about `matchStep`). -/
def bumpFilled (o : Order) (q : Nat) : Order :=
  { o with filled_quantity := o.filled_quantity + q }

/-- One iteration of the `while` loop of `Book::match_order` (source lines
91–142).  `none` means the loop exits returning the current state (the
`while` guard fails, the side is empty, the price is incompatible, or the
tradable quantity is zero); `some (taker', side', fills')` means the loop
continues with the updated state: either the expired best maker was evicted
(`continue`, lines 100–103) or a fill was emitted, both orders' filled
quantities were incremented, and a fully filled maker was removed
(lines 111–138). -/
def matchStep (taker : Order) (side : BookSide) (timestamp : Nat)
    (fills : List Fill) : Option (Order × BookSide × List Fill) :=
  if 0 < taker.remaining_quantity ∧ side ≠ [] ∧ fills.length < MAX_FILLS then
    match (if taker.is_bid then sideFirst side else sideLast side) with
    | some (order_id, maker) =>
      if maker.expire_timestamp < timestamp then
        some (taker, sideRemove order_id side, fills)
      else if ¬ prices_match taker maker then none
      else if min taker.remaining_quantity maker.remaining_quantity = 0 then none
      else
        let fill_qty := min taker.remaining_quantity maker.remaining_quantity
        let taker' := { taker with
          filled_quantity := taker.filled_quantity + fill_qty }
        let maker' := { maker with
          filled_quantity := maker.filled_quantity + fill_qty }
        let side' := if maker'.is_filled then sideRemove order_id side
          else sideUpdate order_id maker' side
        some (taker', side', fills ++ [mkFill order_id taker maker timestamp])
    | none => none
  else none

/-- The `while` loop of `Book::match_order`, fuel-indexed iteration of
`matchStep`.  Returns the accumulated fills, the final opposite side, and
the (locally mutated) taker. -/
def matchLoopF : Nat → Order → BookSide → Nat → List Fill →
    List Fill × BookSide × Order
  | 0, taker, side, _, fills => (fills, side, taker)
  | fuel + 1, taker, side, timestamp, fills =>
    match matchStep taker side timestamp fills with
    | none => (fills, side, taker)
    | some (taker', side', fills') => matchLoopF fuel taker' side' timestamp fills'

/-- Method `Book::match_order`: run the loop on the side opposite the taker, with
enough fuel for the loop to reach one of its exits.  Returns the fills and
the mutated book. -/
def Book.match_order (b : Book) (taker : Order) (timestamp : Nat) :
    List Fill × Book :=
  if taker.is_bid then
    let r := matchLoopF (b.asks.length + MAX_FILLS) taker b.asks timestamp []
    (r.1, { b with asks := r.2.1 })
  else
    let r := matchLoopF (b.bids.length + MAX_FILLS) taker b.bids timestamp []
    (r.1, { b with bids := r.2.1 })

/-- Method `Book::place_order`: match a clone of the order, then insert the
*original* order (unchanged `filled_quantity`) into its side whenever the
original is not filled.  No validation is performed. -/
def Book.place_order (b : Book) (order : Order) : List Fill × Book :=
  let r := b.match_order order order.expire_timestamp
  if ¬ order.is_filled then
    if order.is_bid then
      (r.1, { r.2 with bids := sideInsert order.order_id order r.2.bids })
    else
      (r.1, { r.2 with asks := sideInsert order.order_id order r.2.asks })
  else r

/-- Method `Book::cancel_order`: remove from the stated side only, returning the
removed order if it was present. -/
def Book.cancel_order (b : Book) (order_id : Nat) (is_bid : Bool) :
    Option Order × Book :=
  if is_bid then
    (sideLookup order_id b.bids, { b with bids := sideRemove order_id b.bids })
  else
    (sideLookup order_id b.asks, { b with asks := sideRemove order_id b.asks })

/-- The documented per-order invariant `0 ≤ filled_quantity ≤ quantity`
(the lower bound is automatic for `Nat`). -/
abbrev OrderWF (o : Order) : Prop := o.filled_quantity ≤ o.quantity

/-- Every order of a side satisfies `OrderWF`. -/
abbrev SideWF (s : BookSide) : Prop := ∀ p ∈ s, OrderWF p.2

/-- Every order of a side has `quantity * price` inside `u64` range, so the
`quote_quantity` multiplication cannot wrap. -/
abbrev SideBounded (s : BookSide) : Prop :=
  ∀ p ∈ s, (p.2 : Order).quantity * p.2.price < U64

/-! Lemmas about the side operations. -/

lemma mem_of_sideFirst {s : BookSide} {x : Nat × Order} (h : sideFirst s = some x) :
    x ∈ s := by
  cases s with
  | nil => simp [sideFirst] at h
  | cons a l => simp [sideFirst] at h; simp [h]

lemma mem_of_sideLast {s : BookSide} {x : Nat × Order} (h : sideLast s = some x) :
    x ∈ s := by
  induction s with
  | nil => simp [sideLast] at h
  | cons a l ih =>
    cases l with
    | nil => simp [sideLast] at h; simp [h]
    | cons b t =>
      rw [sideLast, List.getLast?_cons_cons] at h
      exact List.mem_cons_of_mem _ (ih h)

lemma sideRemove_length_le (k : Nat) (s : BookSide) :
    (sideRemove k s).length ≤ s.length := by
  induction s with
  | nil => simp [sideRemove]
  | cons a l ih =>
    obtain ⟨k', v'⟩ := a
    by_cases h : k = k'
    · simp [sideRemove, h]
    · simp only [sideRemove, if_neg h, List.length_cons]
      omega

lemma sideRemove_length_of_mem {k : Nat} {v : Order} {s : BookSide}
    (h : (k, v) ∈ s) : (sideRemove k s).length + 1 = s.length := by
  induction s with
  | nil => simp at h
  | cons a l ih =>
    obtain ⟨k', v'⟩ := a
    by_cases hk : k = k'
    · simp [sideRemove, hk]
    · have hm : (k, v) ∈ l := by
        rcases List.mem_cons.mp h with h1 | h1
        · exact absurd (congrArg Prod.fst h1) hk
        · exact h1
      simp [sideRemove, hk, ih hm]

lemma sideUpdate_length (k : Nat) (v : Order) (s : BookSide) :
    (sideUpdate k v s).length = s.length := by
  induction s with
  | nil => simp [sideUpdate]
  | cons a l ih =>
    obtain ⟨k', v'⟩ := a
    by_cases h : k = k' <;> simp [sideUpdate, h, ih]

lemma mem_of_mem_sideRemove {k : Nat} {s : BookSide} {x : Nat × Order}
    (h : x ∈ sideRemove k s) : x ∈ s := by
  induction s with
  | nil => simp [sideRemove] at h
  | cons a l ih =>
    obtain ⟨k', v'⟩ := a
    by_cases hk : k = k'
    · simp only [sideRemove, if_pos hk] at h
      exact List.mem_cons_of_mem _ h
    · simp only [sideRemove, if_neg hk, List.mem_cons] at h
      rcases h with h | h
      · simp [h]
      · exact List.mem_cons_of_mem _ (ih h)

lemma mem_of_mem_sideUpdate {k : Nat} {v : Order} {s : BookSide} {x : Nat × Order}
    (h : x ∈ sideUpdate k v s) : x ∈ s ∨ x = (k, v) := by
  induction s with
  | nil => simp [sideUpdate] at h
  | cons a l ih =>
    obtain ⟨k', v'⟩ := a
    by_cases hk : k = k'
    · simp only [sideUpdate, if_pos hk, List.mem_cons] at h
      rcases h with h | h
      · right; exact h
      · left; exact List.mem_cons_of_mem _ h
    · simp only [sideUpdate, if_neg hk, List.mem_cons] at h
      rcases h with h | h
      · left; simp [h]
      · rcases ih h with h1 | h1
        · left; exact List.mem_cons_of_mem _ h1
        · right; exact h1

lemma sideLookup_eq_none_iff {k : Nat} {s : BookSide} :
    sideLookup k s = none ↔ ∀ v : Order, (k, v) ∉ s := by
  induction s with
  | nil => simp [sideLookup]
  | cons a l ih =>
    obtain ⟨k', v'⟩ := a
    by_cases hk : k = k'
    · subst hk
      simp only [sideLookup, if_pos rfl]
      constructor
      · intro h; cases h
      · intro h
        exact absurd (List.mem_cons_self _ _) (h v')
    · simp only [sideLookup, if_neg hk, ih, List.mem_cons]
      constructor
      · intro h v hv
        rcases hv with hv | hv
        · exact hk (congrArg Prod.fst hv)
        · exact h v hv
      · intro h v hv
        exact h v (Or.inr hv)

lemma sideRemove_of_not_mem {k : Nat} {s : BookSide}
    (h : ∀ v : Order, (k, v) ∉ s) : sideRemove k s = s := by
  induction s with
  | nil => simp [sideRemove]
  | cons a l ih =>
    obtain ⟨k', v'⟩ := a
    have hk : k ≠ k' := fun hkk => h v' (by simp [hkk])
    have hl : ∀ v : Order, (k, v) ∉ l := fun v hv => h v (List.mem_cons_of_mem _ hv)
    simp [sideRemove, hk, ih hl]

lemma sorted_head_lt {k' : Nat} {v' : Order} {l : BookSide}
    (hs : SideSorted ((k', v') :: l)) : ∀ x ∈ l, k' < x.1 := by
  induction l generalizing k' v' with
  | nil => simp
  | cons b t ih =>
    obtain ⟨k₂, v₂⟩ := b
    have h1 : k' < k₂ := (List.chain'_cons.mp hs).1
    have h2 : SideSorted ((k₂, v₂) :: t) := (List.chain'_cons.mp hs).2
    intro x hx
    rcases List.mem_cons.mp hx with h | h
    · subst h; exact h1
    · exact lt_trans h1 (ih h2 x h)

lemma not_mem_sideRemove_self {k : Nat} {v : Order} {s : BookSide}
    (hs : SideSorted s) : (k, v) ∉ sideRemove k s := by
  induction s with
  | nil => simp [sideRemove]
  | cons a l ih =>
    obtain ⟨k', v'⟩ := a
    by_cases hk : k = k'
    · subst hk
      simp only [sideRemove, if_pos rfl]
      intro hmem
      exact lt_irrefl k (sorted_head_lt hs _ hmem)
    · simp only [sideRemove, if_neg hk, List.mem_cons]
      rintro (h | h)
      · exact hk (congrArg Prod.fst h)
      · exact ih (List.Chain'.tail hs) h

/-! Unfolding and step lemmas for the matching loop. -/

lemma matchLoopF_zero (taker : Order) (side : BookSide) (ts : Nat)
    (fills : List Fill) : matchLoopF 0 taker side ts fills = (fills, side, taker) := rfl

lemma matchLoopF_succ (fuel : Nat) (taker : Order) (side : BookSide) (ts : Nat)
    (fills : List Fill) :
    matchLoopF (fuel + 1) taker side ts fills
      = match matchStep taker side ts fills with
        | none => (fills, side, taker)
        | some (taker', side', fills') => matchLoopF fuel taker' side' ts fills' := rfl

/-- Every continuing iteration strictly decreases
`side.length + (MAX_FILLS - fills.length)`. -/
lemma matchStep_measure {taker : Order} {side : BookSide} {ts : Nat}
    {fills : List Fill} {t' : Order} {s' : BookSide} {f' : List Fill}
    (h : matchStep taker side ts fills = some (t', s', f')) :
    s'.length + (MAX_FILLS - f'.length) < side.length + (MAX_FILLS - fills.length) := by
  unfold matchStep at h
  split at h
  case isFalse => simp at h
  case isTrue hg =>
    obtain ⟨-, -, hcap⟩ := hg
    split at h
    case h_2 => simp at h
    case h_1 order_id maker hbest =>
      have hmem : (order_id, maker) ∈ side := by
        split at hbest
        · exact mem_of_sideFirst hbest
        · exact mem_of_sideLast hbest
      have hlen := sideRemove_length_of_mem hmem
      split at h
      · -- expired maker evicted
        obtain ⟨rfl, rfl, rfl⟩ := Prod.mk.injEq .. ▸ (Option.some.injEq .. ▸ h)
        omega
      · split at h
        · simp at h
        · split at h
          · simp at h
          · -- fill emitted
            simp only [Option.some.injEq, Prod.mk.injEq] at h
            obtain ⟨-, hs, hf⟩ := h
            subst hf
            split at hs <;> subst hs <;>
              simp [sideUpdate_length, List.length_append] <;> omega

/-- Full characterization of a continuing iteration: either the expired best
maker is evicted, or a fill against the (unexpired, price-compatible) best
maker is emitted and both orders are updated. -/
lemma matchStep_some_elim {taker : Order} {side : BookSide} {ts : Nat}
    {fills : List Fill} {t' : Order} {s' : BookSide} {f' : List Fill}
    (h : matchStep taker side ts fills = some (t', s', f')) :
    0 < taker.remaining_quantity ∧ fills.length < MAX_FILLS ∧
    ∃ k maker,
      (if taker.is_bid then sideFirst side else sideLast side) = some (k, maker) ∧
      (k, maker) ∈ side ∧
      ((maker.expire_timestamp < ts ∧ t' = taker ∧ s' = sideRemove k side ∧
        f' = fills)
       ∨ (¬ maker.expire_timestamp < ts ∧ prices_match taker maker = true ∧
          0 < min taker.remaining_quantity maker.remaining_quantity ∧
          t' = bumpFilled taker
                 (min taker.remaining_quantity maker.remaining_quantity) ∧
          s' = (if (bumpFilled maker
                     (min taker.remaining_quantity maker.remaining_quantity)).is_filled
                then sideRemove k side
                else sideUpdate k (bumpFilled maker
                  (min taker.remaining_quantity maker.remaining_quantity)) side) ∧
          f' = fills ++ [mkFill k taker maker ts])) := by
  unfold matchStep at h
  split at h
  case isFalse => simp at h
  case isTrue hg =>
    obtain ⟨hrem, -, hcap⟩ := hg
    refine ⟨hrem, hcap, ?_⟩
    split at h
    case h_2 => simp at h
    case h_1 k maker hbest =>
      have hmem : (k, maker) ∈ side := by
        split at hbest
        · exact mem_of_sideFirst hbest
        · exact mem_of_sideLast hbest
      refine ⟨k, maker, hbest, hmem, ?_⟩
      split at h
      case isTrue hexp =>
        simp only [Option.some.injEq, Prod.mk.injEq] at h
        exact Or.inl ⟨hexp, h.1.symm, h.2.1.symm, h.2.2.symm⟩
      case isFalse hexp =>
        split at h
        case isTrue => simp at h
        case isFalse hpm =>
          split at h
          case isTrue => simp at h
          case isFalse hqty =>
            simp only [Option.some.injEq, Prod.mk.injEq] at h
            refine Or.inr ⟨hexp, ?_, ?_, ?_, ?_, h.2.2.symm⟩
            · simpa using hpm
            · omega
            · rw [← h.1]; rfl
            · rw [← h.2.1]; rfl

/-! Preservation of the per-order invariant (claim C5). -/

lemma mem_of_mem_sideInsert {k : Nat} {v : Order} {s : BookSide} {x : Nat × Order}
    (h : x ∈ sideInsert k v s) : x ∈ s ∨ x = (k, v) := by
  induction s with
  | nil => simp [sideInsert] at h; right; exact h
  | cons a l ih =>
    obtain ⟨k', v'⟩ := a
    unfold sideInsert at h
    split at h
    · rcases List.mem_cons.mp h with h1 | h1
      · right; exact h1
      · left; exact h1
    · split at h
      · rcases List.mem_cons.mp h with h1 | h1
        · right; exact h1
        · left; exact List.mem_cons_of_mem _ h1
      · rcases List.mem_cons.mp h with h1 | h1
        · left; simp [h1]
        · rcases ih h1 with h2 | h2
          · left; exact List.mem_cons_of_mem _ h2
          · right; exact h2

lemma matchStep_wf {taker : Order} {side : BookSide} {ts : Nat}
    {fills : List Fill} {t' : Order} {s' : BookSide} {f' : List Fill}
    (hw : SideWF side) (ht : OrderWF taker)
    (h : matchStep taker side ts fills = some (t', s', f')) :
    SideWF s' ∧ OrderWF t' := by
  obtain ⟨hrem, hcap, k, maker, hbest, hmem, hcase⟩ := matchStep_some_elim h
  rcases hcase with ⟨-, rfl, rfl, rfl⟩ | ⟨-, -, hqty, ht', hs', hf'⟩
  · exact ⟨fun p hp => hw p (mem_of_mem_sideRemove hp), ht⟩
  · have hmw : OrderWF maker := hw _ hmem
    have htr := min_le_left taker.remaining_quantity maker.remaining_quantity
    have hmr := min_le_right taker.remaining_quantity maker.remaining_quantity
    constructor
    · subst hs'
      intro p hp
      split at hp
      · exact hw p (mem_of_mem_sideRemove hp)
      · rcases mem_of_mem_sideUpdate hp with h1 | h1
        · exact hw p h1
        · subst h1
          unfold OrderWF Order.remaining_quantity bumpFilled at *
          simp only at *
          omega
    · subst ht'
      unfold OrderWF Order.remaining_quantity bumpFilled at *
      simp only at *
      omega

lemma matchLoopF_wf (fuel : Nat) :
    ∀ (taker : Order) (side : BookSide) (ts : Nat) (fills : List Fill),
    SideWF side → OrderWF taker →
    SideWF (matchLoopF fuel taker side ts fills).2.1 ∧
    OrderWF (matchLoopF fuel taker side ts fills).2.2 := by
  induction fuel with
  | zero => intro taker side ts fills hw ht; exact ⟨hw, ht⟩
  | succ n ih =>
    intro taker side ts fills hw ht
    cases hstep : matchStep taker side ts fills with
    | none => simp only [matchLoopF_succ, hstep]; exact ⟨hw, ht⟩
    | some r =>
      obtain ⟨t', s', f'⟩ := r
      obtain ⟨hw', ht'⟩ := matchStep_wf hw ht hstep
      simp only [matchLoopF_succ, hstep]
      exact ih t' s' ts f' hw' ht'

/-! The fill cap (claim C6). -/

lemma matchStep_fills_le {taker : Order} {side : BookSide} {ts : Nat}
    {fills : List Fill} {t' : Order} {s' : BookSide} {f' : List Fill}
    (h : matchStep taker side ts fills = some (t', s', f')) :
    f'.length ≤ MAX_FILLS := by
  obtain ⟨-, hcap, k, maker, -, -, hcase⟩ := matchStep_some_elim h
  rcases hcase with ⟨-, -, -, rfl⟩ | ⟨-, -, -, -, -, hf'⟩
  · omega
  · subst hf'
    simp only [List.length_append, List.length_singleton]
    omega

lemma matchLoopF_fills_le (fuel : Nat) :
    ∀ (taker : Order) (side : BookSide) (ts : Nat) (fills : List Fill),
    fills.length ≤ MAX_FILLS →
    (matchLoopF fuel taker side ts fills).1.length ≤ MAX_FILLS := by
  induction fuel with
  | zero => intro taker side ts fills hf; exact hf
  | succ n ih =>
    intro taker side ts fills hf
    cases hstep : matchStep taker side ts fills with
    | none => simp only [matchLoopF_succ, hstep]; exact hf
    | some r =>
      obtain ⟨t', s', f'⟩ := r
      simp only [matchLoopF_succ, hstep]
      exact ih t' s' ts f' (matchStep_fills_le hstep)

/-! Theorems settling the claims, one per claim. -/

/-- Claim C5 (confirmed).  If every resting order and the incoming taker
satisfy `0 ≤ filled_quantity ≤ quantity`, then after `match_order`,
`place_order`, or `cancel_order` every order in the book still satisfies
it, and the taker as mutated by the matching loop does too (each matching
step adds at most the respective remaining quantity). -/
theorem c5_filled_le_quantity (b : Book) (taker : Order) (ts id : Nat)
    (flag : Bool) (hb : SideWF b.bids) (ha : SideWF b.asks)
    (ht : OrderWF taker) :
    (SideWF (b.match_order taker ts).2.bids ∧
     SideWF (b.match_order taker ts).2.asks) ∧
    (SideWF (b.place_order taker).2.bids ∧
     SideWF (b.place_order taker).2.asks) ∧
    (SideWF (b.cancel_order id flag).2.bids ∧
     SideWF (b.cancel_order id flag).2.asks) ∧
    (taker.is_bid = true →
      OrderWF (matchLoopF (b.asks.length + MAX_FILLS) taker b.asks ts []).2.2) ∧
    (taker.is_bid = false →
      OrderWF (matchLoopF (b.bids.length + MAX_FILLS) taker b.bids ts []).2.2) := by
  have hma := matchLoopF_wf (b.asks.length + MAX_FILLS) taker b.asks ts [] ha ht
  have hmb := matchLoopF_wf (b.bids.length + MAX_FILLS) taker b.bids ts [] hb ht
  have hmo : SideWF (b.match_order taker ts).2.bids ∧
      SideWF (b.match_order taker ts).2.asks := by
    unfold Book.match_order
    split
    · exact ⟨hb, hma.1⟩
    · exact ⟨hmb.1, ha⟩
  refine ⟨hmo, ?_, ?_, fun _ => hma.2, fun _ => hmb.2⟩
  · have hma' := matchLoopF_wf (b.asks.length + MAX_FILLS) taker b.asks
      taker.expire_timestamp [] ha ht
    have hmb' := matchLoopF_wf (b.bids.length + MAX_FILLS) taker b.bids
      taker.expire_timestamp [] hb ht
    have hmo' : SideWF (b.match_order taker taker.expire_timestamp).2.bids ∧
        SideWF (b.match_order taker taker.expire_timestamp).2.asks := by
      unfold Book.match_order
      split
      · exact ⟨hb, hma'.1⟩
      · exact ⟨hmb'.1, ha⟩
    unfold Book.place_order
    split
    · split
      · refine ⟨?_, hmo'.2⟩
        intro p hp
        rcases mem_of_mem_sideInsert hp with h1 | h1
        · exact hmo'.1 p h1
        · subst h1; exact ht
      · refine ⟨hmo'.1, ?_⟩
        intro p hp
        rcases mem_of_mem_sideInsert hp with h1 | h1
        · exact hmo'.2 p h1
        · subst h1; exact ht
    · exact hmo'
  · unfold Book.cancel_order
    split
    · exact ⟨fun p hp => hb p (mem_of_mem_sideRemove hp), ha⟩
    · exact ⟨hb, fun p hp => ha p (mem_of_mem_sideRemove hp)⟩

/-- Closed witness for claim C5 at a concrete book and taker. -/
theorem c5_filled_le_quantity_witness :
    (SideWF [(2, ⟨2, 5, 50, 0, "bob", 100, false⟩)] ∧
     SideWF ([] : BookSide) ∧
     OrderWF ⟨1, 5, 10, 0, "alice", 100, true⟩) ∧
    SideWF (((⟨[], [(2, ⟨2, 5, 50, 0, "bob", 100, false⟩)], 0, 1⟩ : Book).place_order
        ⟨1, 5, 10, 0, "alice", 100, true⟩).2.bids) := by
  constructor
  · exact ⟨by decide, by decide, by decide⟩
  · exact (c5_filled_le_quantity
      (⟨[], [(2, ⟨2, 5, 50, 0, "bob", 100, false⟩)], 0, 1⟩ : Book)
      ⟨1, 5, 10, 0, "alice", 100, true⟩ 100 2 true
      (by decide) (by decide) (by decide)).2.1.1

/-- Claim C6 (confirmed).  A single call to `match_order` returns at most
`MAX_FILLS = 100` fills. -/
theorem c6_fill_cap (b : Book) (taker : Order) (ts : Nat) :
    (b.match_order taker ts).1.length ≤ 100 := by
  have h1 := matchLoopF_fills_le (b.asks.length + MAX_FILLS) taker b.asks ts []
    (by simp [MAX_FILLS])
  have h2 := matchLoopF_fills_le (b.bids.length + MAX_FILLS) taker b.bids ts []
    (by simp [MAX_FILLS])
  unfold Book.match_order
  split
  · exact h1
  · exact h2

/-! Termination: the loop reaches an exit within
`side.length + MAX_FILLS` iterations (claim C10). -/

lemma matchLoopF_fuel_succ :
    ∀ (fuel : Nat) (taker : Order) (side : BookSide) (ts : Nat)
      (fills : List Fill),
    side.length + (MAX_FILLS - fills.length) ≤ fuel →
    matchLoopF (fuel + 1) taker side ts fills
      = matchLoopF fuel taker side ts fills := by
  intro fuel
  induction fuel with
  | zero =>
    intro taker side ts fills h
    have hside : side = [] := by
      cases side with
      | nil => rfl
      | cons a l => simp [List.length_cons] at h
    subst hside
    have hnone : matchStep taker [] ts fills = none := by
      unfold matchStep
      simp
    rw [matchLoopF_succ, hnone]
    rfl
  | succ n ih =>
    intro taker side ts fills h
    rw [matchLoopF_succ (n + 1), matchLoopF_succ n]
    cases hstep : matchStep taker side ts fills with
    | none => rfl
    | some r =>
      obtain ⟨t', s', f'⟩ := r
      have hm := matchStep_measure hstep
      exact ih t' s' ts f' (by omega)

lemma matchLoopF_fuel_add :
    ∀ (d fuel : Nat) (taker : Order) (side : BookSide) (ts : Nat)
      (fills : List Fill),
    side.length + (MAX_FILLS - fills.length) ≤ fuel →
    matchLoopF (fuel + d) taker side ts fills
      = matchLoopF fuel taker side ts fills := by
  intro d
  induction d with
  | zero => intro fuel taker side ts fills h; rfl
  | succ m ih =>
    intro fuel taker side ts fills h
    have he : fuel + (m + 1) = (fuel + m) + 1 := rfl
    rw [he, matchLoopF_fuel_succ (fuel + m) taker side ts fills (by omega),
      ih fuel taker side ts fills h]

/-- Claim C10 (confirmed).  `match_order` terminates: its loop reaches one
of its exits (taker filled, side exhausted, fill cap, price break, or
zero-quantity break) within `side.length + MAX_FILLS` iterations — every
iteration either evicts or fully fills a maker (shrinking the side) or
emits a fill (bounded by the cap) — so the iteration budget the entry
point grants is enough, and any extra budget returns the identical fills,
side and taker, for every book, taker order and timestamp. -/
theorem c10_match_order_terminates (b : Book) (taker : Order)
    (ts extra : Nat) :
    (matchLoopF (b.asks.length + MAX_FILLS + extra) taker b.asks ts []
      = matchLoopF (b.asks.length + MAX_FILLS) taker b.asks ts []) ∧
    (matchLoopF (b.bids.length + MAX_FILLS + extra) taker b.bids ts []
      = matchLoopF (b.bids.length + MAX_FILLS) taker b.bids ts []) :=
  ⟨matchLoopF_fuel_add extra (b.asks.length + MAX_FILLS) taker b.asks ts []
      (by simp),
   matchLoopF_fuel_add extra (b.bids.length + MAX_FILLS) taker b.bids ts []
      (by simp)⟩

/-! Lazy expiry of the best maker (claim C8). -/

lemma matchStep_expired {taker : Order} {side : BookSide} {ts k : Nat}
    {maker : Order} {fills : List Fill}
    (hrem : 0 < taker.remaining_quantity) (hcap : fills.length < MAX_FILLS)
    (hbest : (if taker.is_bid then sideFirst side else sideLast side)
      = some (k, maker))
    (hexp : maker.expire_timestamp < ts) :
    matchStep taker side ts fills = some (taker, sideRemove k side, fills) := by
  have hne : side ≠ [] := by
    intro hs
    subst hs
    by_cases hb : taker.is_bid <;> simp [hb, sideFirst, sideLast] at hbest
  unfold matchStep
  rw [if_pos ⟨hrem, hne, hcap⟩, hbest]
  simp only [if_pos hexp]

lemma matchLoopF_expired_best (taker : Order) (side : BookSide) (ts k : Nat)
    (maker : Order) (hrem : 0 < taker.remaining_quantity)
    (hbest : (if taker.is_bid then sideFirst side else sideLast side)
      = some (k, maker))
    (hexp : maker.expire_timestamp < ts) :
    matchLoopF (side.length + MAX_FILLS) taker side ts []
      = matchLoopF ((sideRemove k side).length + MAX_FILLS) taker
          (sideRemove k side) ts [] := by
  have hmem : (k, maker) ∈ side := by
    split at hbest
    · exact mem_of_sideFirst hbest
    · exact mem_of_sideLast hbest
  have hlen := sideRemove_length_of_mem hmem
  have hstep := @matchStep_expired taker side ts k maker []
    hrem (by simp [MAX_FILLS]) hbest hexp
  have h1 : side.length + MAX_FILLS
      = ((sideRemove k side).length + MAX_FILLS) + 1 := by omega
  rw [h1, matchLoopF_succ, hstep]

lemma matchStep_keys {taker : Order} {side : BookSide} {ts : Nat}
    {fills : List Fill} {t' : Order} {s' : BookSide} {f' : List Fill}
    (h : matchStep taker side ts fills = some (t', s', f'))
    {k : Nat} (hk : ∀ v : Order, (k, v) ∉ side) :
    ∀ v : Order, (k, v) ∉ s' := by
  obtain ⟨-, -, k₀, maker, -, hmem, hcase⟩ := matchStep_some_elim h
  rcases hcase with ⟨-, -, rfl, -⟩ | ⟨-, -, -, -, hs', -⟩
  · intro v hv
    exact hk v (mem_of_mem_sideRemove hv)
  · subst hs'
    intro v hv
    split at hv
    · exact hk v (mem_of_mem_sideRemove hv)
    · rcases mem_of_mem_sideUpdate hv with h1 | h1
      · exact hk v h1
      · have hkk : k = k₀ := congrArg Prod.fst h1
        subst hkk
        exact hk maker hmem

lemma matchLoopF_keys (fuel : Nat) :
    ∀ (taker : Order) (side : BookSide) (ts : Nat) (fills : List Fill)
      (k : Nat),
    (∀ v : Order, (k, v) ∉ side) →
    ∀ v : Order, (k, v) ∉ (matchLoopF fuel taker side ts fills).2.1 := by
  induction fuel with
  | zero => intro taker side ts fills k hk; exact hk
  | succ n ih =>
    intro taker side ts fills k hk
    cases hstep : matchStep taker side ts fills with
    | none => simp only [matchLoopF_succ, hstep]; exact hk
    | some r =>
      obtain ⟨t', s', f'⟩ := r
      simp only [matchLoopF_succ, hstep]
      exact ih t' s' ts f' k (matchStep_keys hstep hk)

/-- Claim C8 (confirmed).  When the best resting maker opposite a
still-unfilled taker has `expire_timestamp < now`, `match_order` behaves
exactly as if that maker had already been removed: identical fills (none
produced from the expired maker), the full fill cap still available, the
scan proceeding with the next-best resting order, and no error; moreover
(on a duplicate-free side) the expired maker is absent from the resulting
book. -/
theorem c8_lazy_expiry (b : Book) (taker : Order) (ts k : Nat) (maker : Order)
    (hrem : 0 < taker.remaining_quantity)
    (hbest : (if taker.is_bid then sideFirst b.asks else sideLast b.bids)
      = some (k, maker))
    (hexp : maker.expire_timestamp < ts) :
    (taker.is_bid = true →
      (b.match_order taker ts
        = Book.match_order { b with asks := sideRemove k b.asks } taker ts) ∧
      (SideSorted b.asks →
        sideLookup k (b.match_order taker ts).2.asks = none)) ∧
    (taker.is_bid = false →
      (b.match_order taker ts
        = Book.match_order { b with bids := sideRemove k b.bids } taker ts) ∧
      (SideSorted b.bids →
        sideLookup k (b.match_order taker ts).2.bids = none)) := by
  constructor
  · intro hb
    have hbest' : (if taker.is_bid then sideFirst b.asks else sideLast b.asks)
        = some (k, maker) := by
      rw [hb] at hbest ⊢
      simpa using hbest
    have hcore := matchLoopF_expired_best taker b.asks ts k maker hrem hbest' hexp
    have heq : b.match_order taker ts
        = Book.match_order { b with asks := sideRemove k b.asks } taker ts := by
      unfold Book.match_order
      simp only [hb, if_true]
      rw [hcore]
    refine ⟨heq, fun hsort => ?_⟩
    rw [heq]
    have hnm : ∀ v : Order, (k, v) ∉ sideRemove k b.asks :=
      fun v => not_mem_sideRemove_self hsort
    have := matchLoopF_keys ((sideRemove k b.asks).length + MAX_FILLS) taker
      (sideRemove k b.asks) ts [] k hnm
    unfold Book.match_order
    simp only [hb, if_true]
    exact sideLookup_eq_none_iff.mpr this
  · intro hb
    have hbest' : (if taker.is_bid then sideFirst b.bids else sideLast b.bids)
        = some (k, maker) := by
      rw [hb] at hbest ⊢
      simpa using hbest
    have hcore := matchLoopF_expired_best taker b.bids ts k maker hrem hbest' hexp
    have heq : b.match_order taker ts
        = Book.match_order { b with bids := sideRemove k b.bids } taker ts := by
      unfold Book.match_order
      simp only [hb, Bool.false_eq_true, if_false]
      rw [hcore]
    refine ⟨heq, fun hsort => ?_⟩
    rw [heq]
    have hnm : ∀ v : Order, (k, v) ∉ sideRemove k b.bids :=
      fun v => not_mem_sideRemove_self hsort
    have := matchLoopF_keys ((sideRemove k b.bids).length + MAX_FILLS) taker
      (sideRemove k b.bids) ts [] k hnm
    unfold Book.match_order
    simp only [hb, Bool.false_eq_true, if_false]
    exact sideLookup_eq_none_iff.mpr this

/-- Closed witness for claim C8: an expired best ask (expires at 10,
matched at 500) is evicted and matching proceeds on the rest. -/
theorem c8_lazy_expiry_witness :
    (0 < (⟨9, 5, 3, 0, "t", 500, true⟩ : Order).remaining_quantity) ∧
    Book.match_order
        ⟨[], [(1, ⟨1, 5, 5, 0, "x", 10, false⟩),
              (2, ⟨2, 5, 5, 0, "y", 1000, false⟩)], 0, 1⟩
        ⟨9, 5, 3, 0, "t", 500, true⟩ 500
      = Book.match_order
          ⟨[], sideRemove 1 [(1, ⟨1, 5, 5, 0, "x", 10, false⟩),
                (2, ⟨2, 5, 5, 0, "y", 1000, false⟩)], 0, 1⟩
          ⟨9, 5, 3, 0, "t", 500, true⟩ 500 :=
  ⟨by decide,
   ((c8_lazy_expiry
      ⟨[], [(1, ⟨1, 5, 5, 0, "x", 10, false⟩),
            (2, ⟨2, 5, 5, 0, "y", 1000, false⟩)], 0, 1⟩
      ⟨9, 5, 3, 0, "t", 500, true⟩ 500 1 ⟨1, 5, 5, 0, "x", 10, false⟩
      (by decide) (by decide) (by decide)).1 rfl).1⟩

/-- Claim C9 (confirmed).  `cancel_order` removes and returns the resting
order exactly when present on the stated side; when absent it returns
`none` and leaves the whole book unchanged; it never inspects or mutates
the opposite side; and it is idempotent: a second cancellation of the same
id on the same side returns `none`.  Stated for both values of the
`is_bid` argument. -/
theorem c9_cancel_contract (b : Book) (id : Nat)
    (hb : SideSorted b.bids) (ha : SideSorted b.asks) :
    ((∀ o : Order, sideLookup id b.bids = some o →
        (b.cancel_order id true).1 = some o ∧
        (b.cancel_order id true).2 = { b with bids := sideRemove id b.bids }) ∧
     (sideLookup id b.bids = none → b.cancel_order id true = (none, b)) ∧
     ((b.cancel_order id true).2.asks = b.asks) ∧
     (((b.cancel_order id true).2.cancel_order id true).1 = none)) ∧
    ((∀ o : Order, sideLookup id b.asks = some o →
        (b.cancel_order id false).1 = some o ∧
        (b.cancel_order id false).2 = { b with asks := sideRemove id b.asks }) ∧
     (sideLookup id b.asks = none → b.cancel_order id false = (none, b)) ∧
     ((b.cancel_order id false).2.bids = b.bids) ∧
     (((b.cancel_order id false).2.cancel_order id false).1 = none)) := by
  refine ⟨⟨?_, ?_, rfl, ?_⟩, ⟨?_, ?_, rfl, ?_⟩⟩
  · intro o ho
    exact ⟨ho, rfl⟩
  · intro ho
    have h2 : sideRemove id b.bids = b.bids :=
      sideRemove_of_not_mem (sideLookup_eq_none_iff.mp ho)
    show (sideLookup id b.bids, { b with bids := sideRemove id b.bids })
      = (none, b)
    rw [ho, h2]
  · show sideLookup id (sideRemove id b.bids) = none
    exact sideLookup_eq_none_iff.mpr fun v => not_mem_sideRemove_self hb
  · intro o ho
    exact ⟨ho, rfl⟩
  · intro ho
    have h2 : sideRemove id b.asks = b.asks :=
      sideRemove_of_not_mem (sideLookup_eq_none_iff.mp ho)
    show (sideLookup id b.asks, { b with asks := sideRemove id b.asks })
      = (none, b)
    rw [ho, h2]
  · show sideLookup id (sideRemove id b.asks) = none
    exact sideLookup_eq_none_iff.mpr fun v => not_mem_sideRemove_self ha

/-- Closed witness for claim C9 at a concrete book: cancelling id 2 on the
ask side returns the resting order, and cancelling it again returns
`none`. -/
theorem c9_cancel_contract_witness :
    ((⟨[(1, ⟨1, 7, 4, 0, "a", 50, true⟩)],
       [(2, ⟨2, 5, 50, 0, "bob", 100, false⟩)], 0, 1⟩ : Book).cancel_order
        2 false).1 = some ⟨2, 5, 50, 0, "bob", 100, false⟩ ∧
    ((((⟨[(1, ⟨1, 7, 4, 0, "a", 50, true⟩)],
        [(2, ⟨2, 5, 50, 0, "bob", 100, false⟩)], 0, 1⟩ : Book).cancel_order
        2 false).2.cancel_order 2 false).1 = none) :=
  ⟨((c9_cancel_contract
      ⟨[(1, ⟨1, 7, 4, 0, "a", 50, true⟩)],
       [(2, ⟨2, 5, 50, 0, "bob", 100, false⟩)], 0, 1⟩ 2
      (List.chain'_singleton _) (List.chain'_singleton _)).2.1
      ⟨2, 5, 50, 0, "bob", 100, false⟩ rfl).1,
   (c9_cancel_contract
      ⟨[(1, ⟨1, 7, 4, 0, "a", 50, true⟩)],
       [(2, ⟨2, 5, 50, 0, "bob", 100, false⟩)], 0, 1⟩ 2
      (List.chain'_singleton _) (List.chain'_singleton _)).2.2.2.2⟩

/-! Fill quote pricing (claim C7). -/

lemma matchStep_provenance {taker : Order} {side : BookSide} {ts : Nat}
    {fills : List Fill} {t' : Order} {s' : BookSide} {f' : List Fill}
    (h : matchStep taker side ts fills = some (t', s', f')) :
    ∀ x ∈ s', ∃ o : Order, (x.1, o) ∈ side ∧ x.2.price = o.price ∧
      x.2.quantity = o.quantity := by
  obtain ⟨-, -, k, maker, -, hmem, hcase⟩ := matchStep_some_elim h
  rcases hcase with ⟨-, -, rfl, -⟩ | ⟨-, -, -, -, hs', -⟩
  · rintro ⟨xk, xo⟩ hx
    exact ⟨xo, mem_of_mem_sideRemove hx, rfl, rfl⟩
  · subst hs'
    rintro ⟨xk, xo⟩ hx
    split at hx
    · exact ⟨xo, mem_of_mem_sideRemove hx, rfl, rfl⟩
    · rcases mem_of_mem_sideUpdate hx with h1 | h1
      · exact ⟨xo, h1, rfl, rfl⟩
      · obtain ⟨hk, ho⟩ := Prod.mk.injEq .. ▸ h1
        subst hk
        subst ho
        exact ⟨maker, hmem, rfl, rfl⟩

lemma matchStep_bounded {taker : Order} {side : BookSide} {ts : Nat}
    {fills : List Fill} {t' : Order} {s' : BookSide} {f' : List Fill}
    (hb : SideBounded side)
    (h : matchStep taker side ts fills = some (t', s', f')) :
    SideBounded s' := by
  intro x hx
  obtain ⟨o, hmem, hp, hq⟩ := matchStep_provenance h x hx
  rw [hp, hq]
  exact hb _ hmem

lemma matchLoopF_quote (fuel : Nat) :
    ∀ (taker : Order) (side : BookSide) (ts : Nat) (fills : List Fill),
    SideBounded side →
    ∀ f ∈ (matchLoopF fuel taker side ts fills).1,
      f ∈ fills ∨ ∃ o : Order, (f.maker_order_id, o) ∈ side ∧
        f.quote_quantity = f.base_quantity * o.price ∧
        f.base_quantity ≤ o.quantity := by
  induction fuel with
  | zero => intro taker side ts fills hb f hf; exact Or.inl hf
  | succ n ih =>
    intro taker side ts fills hb f hf
    cases hstep : matchStep taker side ts fills with
    | none =>
      simp only [matchLoopF_succ, hstep] at hf
      exact Or.inl hf
    | some r =>
      obtain ⟨t', s', f'⟩ := r
      simp only [matchLoopF_succ, hstep] at hf
      rcases ih t' s' ts f' (matchStep_bounded hb hstep) f hf
        with h1 | ⟨o, ho, hq, hle⟩
      · obtain ⟨-, -, k, maker, -, hmem, hcase⟩ := matchStep_some_elim hstep
        rcases hcase with ⟨-, -, -, rfl⟩ | ⟨-, -, -, -, -, hf'⟩
        · exact Or.inl h1
        · subst hf'
          rcases List.mem_append.mp h1 with h2 | h2
          · exact Or.inl h2
          · have hfe : f = mkFill k taker maker ts := by simpa using h2
            subst hfe
            refine Or.inr ⟨maker, hmem, ?_, ?_⟩
            · have hble : min taker.remaining_quantity maker.remaining_quantity
                  ≤ maker.quantity :=
                le_trans (min_le_right _ _) (Nat.sub_le _ _)
              have hlt : min taker.remaining_quantity maker.remaining_quantity
                  * maker.price < U64 :=
                lt_of_le_of_lt (Nat.mul_le_mul_right _ hble) (hb _ hmem)
              show min taker.remaining_quantity maker.remaining_quantity
                  * maker.price % U64
                = min taker.remaining_quantity maker.remaining_quantity
                  * maker.price
              exact Nat.mod_eq_of_lt hlt
            · exact le_trans (min_le_right _ _) (Nat.sub_le _ _)
      · obtain ⟨o₀, hmem₀, hp, hq₀⟩ :=
          matchStep_provenance hstep (f.maker_order_id, o) ho
        exact Or.inr ⟨o₀, hmem₀, by rw [hq, hp], by rw [← hq₀]; exact hle⟩

/-- Claim C7 (confirmed).  On a book whose resting orders all have
`quantity * price` within `u64` range (so the multiplication cannot wrap),
every fill produced by `match_order` prices the trade at the maker's
price: its `quote_quantity` equals `base_quantity` times the price of the
resting order carrying the fill's `maker_order_id` (never the taker's
price), with `base_quantity` bounded by that maker's quantity; and, at
each step, the emitted fill's `base_quantity` is exactly the minimum of
the two orders' remaining quantities and its `quote_quantity` is that
minimum times the maker's price. -/
theorem c7_quote_uses_maker_price (b : Book) (taker : Order) (ts : Nat)
    (hbb : SideBounded b.bids) (hba : SideBounded b.asks) :
    (∀ f ∈ (b.match_order taker ts).1, ∃ o : Order,
      ((f.maker_order_id, o) ∈ b.asks ∨ (f.maker_order_id, o) ∈ b.bids) ∧
      f.quote_quantity = f.base_quantity * o.price ∧
      f.base_quantity ≤ o.quantity) ∧
    (∀ (k : Nat) (t m : Order) (c : Nat),
      (mkFill k t m c).base_quantity
        = min t.remaining_quantity m.remaining_quantity ∧
      (mkFill k t m c).quote_quantity
        = min t.remaining_quantity m.remaining_quantity * m.price % U64) := by
  constructor
  · intro f hf
    unfold Book.match_order at hf
    split at hf
    · rcases matchLoopF_quote (b.asks.length + MAX_FILLS) taker b.asks ts []
        hba f hf with h | ⟨o, ho, hq, hle⟩
      · simp at h
      · exact ⟨o, Or.inl ho, hq, hle⟩
    · rcases matchLoopF_quote (b.bids.length + MAX_FILLS) taker b.bids ts []
        hbb f hf with h | ⟨o, ho, hq, hle⟩
      · simp at h
      · exact ⟨o, Or.inr ho, hq, hle⟩
  · intro k t m c
    exact ⟨rfl, rfl⟩

/-- Closed witness for claim C7: the single fill of spec Scenario A/B
pricing at the maker's price. -/
theorem c7_quote_uses_maker_price_witness :
    (SideBounded ([] : BookSide) ∧
     SideBounded [(2, ⟨2, 5, 50, 0, "bob", 100, false⟩)]) ∧
    (∃ o : Order,
      (((⟨2, 1, 10, 50, 100⟩ : Fill).maker_order_id, o)
          ∈ [((2 : Nat), (⟨2, 5, 50, 0, "bob", 100, false⟩ : Order))] ∨
       ((⟨2, 1, 10, 50, 100⟩ : Fill).maker_order_id, o) ∈ ([] : BookSide)) ∧
      (⟨2, 1, 10, 50, 100⟩ : Fill).quote_quantity
        = (⟨2, 1, 10, 50, 100⟩ : Fill).base_quantity * o.price ∧
      (⟨2, 1, 10, 50, 100⟩ : Fill).base_quantity ≤ o.quantity) :=
  ⟨⟨by decide, by decide⟩,
   (c7_quote_uses_maker_price
      ⟨[], [(2, ⟨2, 5, 50, 0, "bob", 100, false⟩)], 0, 1⟩
      ⟨1, 5, 10, 0, "alice", 100, true⟩ 100 (by decide) (by decide)).1
      ⟨2, 1, 10, 50, 100⟩ (by decide)⟩


/-- Claim C1 (code bug).  Spec Scenario B: an incoming bid (price 5, qty 10)
against a resting ask (price 5, qty 50) produces one fill of base 10 that
fully fills the taker, so the taker must not be rested.  The code matches a
*clone* of the order and then tests `is_filled` on the original, whose
`filled_quantity` was never updated: the fully filled taker is nevertheless
inserted into the bid side with `filled_quantity = 0`. -/
theorem c1_filled_taker_rested_anyway :
    (((Book.new.place_order ⟨2, 5, 50, 0, "bob", 100, false⟩).2.place_order
        ⟨1, 5, 10, 0, "alice", 100, true⟩).1
      = [⟨2, 1, 10, 50, 100⟩]) ∧
    (sideLookup 1 ((Book.new.place_order ⟨2, 5, 50, 0, "bob", 100, false⟩).2.place_order
        ⟨1, 5, 10, 0, "alice", 100, true⟩).2.bids
      = some ⟨1, 5, 10, 0, "alice", 100, true⟩) := by
  decide

/-- Claim C2 (code bug).  The resting sides are keyed by raw order identifier,
not by a (price, arrival) composite key, so "best" retrieval is by id
magnitude.  With resting asks id 1 at price 10 and id 2 at price 5, an
incoming bid at price 5 is matched first against the id-1 ask (price 10),
found price-incompatible, and matching stops with zero fills — even though
the remaining resting ask id 2 (price 5) is price-compatible with the
taker.  This also falsifies the stop condition's consequence and
contradicts the repository's own `test_multiple_fills`. -/
theorem c2_stops_despite_compatible_maker :
    ((((Book.new.place_order ⟨1, 10, 7, 0, "a", 100, false⟩).2.place_order
        ⟨2, 5, 7, 0, "b", 100, false⟩).2.match_order ⟨9, 5, 3, 0, "t", 100, true⟩ 100).1
      = []) ∧
    (sideLookup 2 (((Book.new.place_order ⟨1, 10, 7, 0, "a", 100, false⟩).2.place_order
        ⟨2, 5, 7, 0, "b", 100, false⟩).2.match_order ⟨9, 5, 3, 0, "t", 100, true⟩ 100).2.asks
      = some ⟨2, 5, 7, 0, "b", 100, false⟩) ∧
    (prices_match ⟨9, 5, 3, 0, "t", 100, true⟩ ⟨2, 5, 7, 0, "b", 100, false⟩ = true) := by
  decide

/-- Claim C3 (code bug).  `place_order` performs no validation at all: the
constants `TICK_SIZE`, `LOT_SIZE`, `MIN_SIZE` are never read, and an order
with `price = 0` is matched and inserted into the resting store instead of
being rejected without mutation (the repository's own `test_invalid_price`
and `test_invalid_quantity` expect rejection). -/
theorem c3_zero_price_order_admitted :
    Book.new.place_order ⟨1, 0, 5, 0, "alice", 100, true⟩
      = ([], { bids := [(1, ⟨1, 0, 5, 0, "alice", 100, true⟩)], asks := [],
               next_bid_order_id := 2 ^ 64 - 1, next_ask_order_id := 1 }) := by
  decide

/-- Claim C4 (code bug).  The per-side id counters (`next_bid_order_id`,
`next_ask_order_id`) are never consulted: `place_order` keys the resting
entry by the externally supplied `order_id`.  Placing two distinct ask
orders that both carry id 7 silently overwrites the first with the second,
and both counters keep their initial values. -/
theorem c4_external_id_used_and_counters_unused :
    ((Book.new.place_order ⟨7, 10, 5, 0, "a", 100, false⟩).2.place_order
        ⟨7, 20, 5, 0, "b", 100, false⟩).2
      = { bids := [], asks := [(7, ⟨7, 20, 5, 0, "b", 100, false⟩)],
          next_bid_order_id := 2 ^ 64 - 1, next_ask_order_id := 1 } := by
  decide

end Octavium
